import Mathlib

/-!
Verification development for the armenian-transliteration package.

The TypeScript sources are shallowly embedded over lists of Unicode code
points (`List Nat`).  Strings are embedded through `S`, single characters
through `C`.  The JavaScript string primitives the package relies on
(`String.prototype.replace` with a global literal pattern,
`String.prototype.split` with a capturing splitter, `toUpperCase` /
`toLowerCase` restricted to the scripts the package manipulates) are given
executable models below, and the package functions are translated file by
file on top of them.
-/

/-- Code points of a string literal. -/
def S (s : String) : List Nat := s.toList.map Char.toNat

/-- Code point of a character literal. -/
def C (c : Char) : Nat := c.toNat

/-- Code point of the ASCII apostrophe, used inside transliteration targets. -/
def apos : Nat := 39

/-!
Simple Unicode case conversion, restricted to the alphabets the package
manipulates: ASCII Latin, the Armenian block, the basic Cyrillic block and
the schwa pair U+0259 / U+018F (the target of the Armenian letter ը).  Any
other code point is caseless and maps to itself, which matches how
`toUpperCase` / `toLowerCase` behave on every character this package can
put into a transliterated word.
-/

/-- Uppercase conversion of a single code point (model of `toUpperCase`). -/
def toUpperN (n : Nat) : Nat :=
  if 0x61 ≤ n ∧ n ≤ 0x7A then n - 0x20
  else if 0x561 ≤ n ∧ n ≤ 0x586 then n - 0x30
  else if 0x430 ≤ n ∧ n ≤ 0x44F then n - 0x20
  else if n = 0x259 then 0x18F
  else n

/-- Lowercase conversion of a single code point (model of `toLowerCase`). -/
def toLowerN (n : Nat) : Nat :=
  if 0x41 ≤ n ∧ n ≤ 0x5A then n + 0x20
  else if 0x531 ≤ n ∧ n ≤ 0x556 then n + 0x30
  else if 0x410 ≤ n ∧ n ≤ 0x42F then n + 0x20
  else if n = 0x18F then 0x259
  else n

/-- Model of `isCharUppercase` from `src/common/utils.ts`:
`ch.toUpperCase() === ch && ch.toLowerCase() !== ch`. -/
def isCharUppercase (n : Nat) : Bool :=
  (toUpperN n == n) && !(toLowerN n == n)

/-- A code point counts as lowercase when it is fixed by lowercasing and
moved by uppercasing (the mirror image of `isCharUppercase`; the package
itself only tests uppercase, this predicate is used to state the casing
claims). -/
def isCharLowercase (n : Nat) : Bool :=
  (toLowerN n == n) && !(toUpperN n == n)

/-!
Global literal replacement.  `normalizeArmenianWord` and
`replaceArmenianPunctuation` rewrite every occurrence of a fixed pattern,
scanning left to right without overlap (`String.prototype.replace` with a
global regexp built from a literal, and `split(mark).join(replacement)`).
`replGo` is the scanner: the `Nat` argument counts pattern characters that
are still to be skipped after a match.  Patterns are always nonempty.
-/

/-- Boolean list-prefix test. -/
def isPref : List Nat → List Nat → Bool
  | [], _ => true
  | _ :: _, [] => false
  | a :: as, b :: bs => a == b && isPref as bs

/-- Left-to-right non-overlapping scanner for literal replacement: the
pattern is `p :: ps`, the replacement `rep`; the counter holds how many
already-matched characters remain to be dropped. -/
def replGo (p : Nat) (ps rep : List Nat) : List Nat → Nat → List Nat
  | [], _ => []
  | c :: cs, 0 =>
    if p == c && isPref ps cs then rep ++ replGo p ps rep cs ps.length
    else c :: replGo p ps rep cs 0
  | _ :: cs, k + 1 => replGo p ps rep cs k

/-- Replace every occurrence of `pat` in `s` by `rep` (model of a global,
non-overlapping literal replacement; the empty pattern never occurs in the
package and is treated as a no-op). -/
def replaceAllStr (pat rep s : List Nat) : List Nat :=
  match pat with
  | [] => s
  | p :: ps => replGo p ps rep s 0

/-- Run a list of (pattern, replacement) passes from left to right, each
pass replacing globally (the shape of the two replacement loops in
`normalizeArmenianWord` and of `replaceArmenianPunctuation`). -/
def runPasses (passes : List (List Nat × List Nat)) (w : List Nat) : List Nat :=
  passes.foldl (fun s pr => replaceAllStr pr.1 pr.2 s) w

/-!
Common constants (`src/common/constants.ts`).
-/

/-- Model of `ARMENIAN_LETTER_REGEX = /[԰-֏և]/u` applied to one
code point (the ligature և, U+0587, already lies in the range; the source
lists it redundantly). -/
def isArmLetter (n : Nat) : Bool :=
  (0x530 ≤ n && n ≤ 0x58F) || n == C 'և'

/-- Whitespace per the JavaScript `\s` character class. -/
def isWs (n : Nat) : Bool :=
  n == 9 || n == 10 || n == 11 || n == 12 || n == 13 || n == 32 ||
  n == 0xA0 || n == 0x1680 || (0x2000 ≤ n && n ≤ 0x200A) ||
  n == 0x2028 || n == 0x2029 || n == 0x202F || n == 0x205F ||
  n == 0x3000 || n == 0xFEFF

/-- Membership in the character class that `ARM_SPLIT_REGEX` keeps
together: `[ա-ֆԱ-Ֆև՝՛։,.\-0-9«»]`. -/
def inKeepClass (n : Nat) : Bool :=
  (0x561 ≤ n && n ≤ 0x586) || (0x531 ≤ n && n ≤ 0x556) ||
  n == C 'և' || n == C '՝' || n == C '՛' || n == C '։' ||
  n == C ',' || n == C '.' || n == C '-' ||
  (0x30 ≤ n && n ≤ 0x39) || n == C '«' || n == C '»'

/-- A delimiter character of `ARM_SPLIT_REGEX`: anything outside the keep
class (this includes whitespace, which the class complement also covers). -/
def isDelim (n : Nat) : Bool := !(inKeepClass n)

/-- Model of `ARM_PUNCTUATION_MAP`, in insertion order.  Every mark and
every replacement is a single code point. -/
def ARM_PUNCTUATION_MAP : List (Nat × Nat) :=
  [(C 'ՙ', apos), (C '՚', apos), (C '՛', apos), (C '՜', C '!'),
   (C '՝', C ','), (C '՞', C '?'), (C '՟', C '.'), (C '։', C '.'),
   (C '֊', C '-'), (C '«', C '"'), (C '»', C '"')]

/-- Model of `ARM_VOWELS`. -/
def ARM_VOWELS : List Nat :=
  [C 'ա', C 'Ա', C 'ե', C 'Ե', C 'է', C 'Է', C 'ի', C 'Ի',
   C 'ո', C 'Ո', C 'օ', C 'Օ', C 'ը', C 'Ը']

/-- Model of `ARMENIAN_LIGATURES`: presentation-form ligatures with their
two-letter expansions, as replacement passes. -/
def ARMENIAN_LIGATURES : List (List Nat × List Nat) :=
  [([C 'ﬓ'], S "մն"), ([C 'ﬔ'], S "մե"), ([C 'ﬕ'], S "մի"),
   ([C 'ﬖ'], S "վն"), ([C 'ﬗ'], S "մխ")]

/-!
Tokenisation.  `splitTextPreservingDelimiters(text, ARM_SPLIT_REGEX)` is
`text.split(/(\s+|[^ա-ֆԱ-Ֆև՝՛։,.\-0-9«»]+)/u)`: the splitter is tried at
every position (sticky semantics), `\s+` before the complement class, both
greedy; matched delimiters are kept because of the capturing group, and an
empty piece separates two adjacent matches as well as a match touching
either end of the string.  `splitCaptureGo` realises exactly this scan:
`text` mode accumulates unmatched characters, `wsRun` is inside a `\s+`
match, `delimRun` inside a complement-class match (whose class also
contains whitespace, so a delimiter run absorbs following spaces, while a
whitespace run stops at the first non-space).
-/

/-- Scanner mode for the capturing split. -/
inductive SplitMode
  | text
  | wsRun
  | delimRun
deriving DecidableEq

/-- Scanner for `String.prototype.split` with the capturing
`ARM_SPLIT_REGEX`; `acc` is the current piece, reversed. -/
def splitCaptureGo : SplitMode → List Nat → List Nat → List (List Nat)
  | .text, acc, [] => [acc.reverse]
  | .text, acc, c :: cs =>
    if isWs c then acc.reverse :: splitCaptureGo .wsRun [c] cs
    else if isDelim c then acc.reverse :: splitCaptureGo .delimRun [c] cs
    else splitCaptureGo .text (c :: acc) cs
  | .wsRun, run, [] => [run.reverse, []]
  | .wsRun, run, c :: cs =>
    if isWs c then splitCaptureGo .wsRun (c :: run) cs
    else if isDelim c then run.reverse :: [] :: splitCaptureGo .delimRun [c] cs
    else run.reverse :: splitCaptureGo .text [c] cs
  | .delimRun, run, [] => [run.reverse, []]
  | .delimRun, run, c :: cs =>
    if isDelim c then splitCaptureGo .delimRun (c :: run) cs
    else run.reverse :: splitCaptureGo .text [c] cs

/-- Model of `splitTextPreservingDelimiters(text, ARM_SPLIT_REGEX)`. -/
def splitTextPreservingDelimiters (text : List Nat) : List (List Nat) :=
  splitCaptureGo .text [] text

/-- Scanner for `String.prototype.split(/\s+/)` (no capture: the matched
whitespace runs are dropped); the Bool is true while inside a run. -/
def splitWsGo : Bool → List Nat → List Nat → List (List Nat)
  | false, acc, [] => [acc.reverse]
  | false, acc, c :: cs =>
    if isWs c then acc.reverse :: splitWsGo true [] cs
    else splitWsGo false (c :: acc) cs
  | true, _, [] => [[]]
  | true, _, c :: cs =>
    if isWs c then splitWsGo true [] cs
    else splitWsGo false [c] cs

/-- Model of `text.split(/\s+/)`. -/
def splitOnWhitespace (text : List Nat) : List (List Nat) :=
  splitWsGo false [] text

/-!
Casing engine (`src/common/types.ts`, `src/common/utils.ts`).
-/

/-- Model of the `WordCasing` enum. -/
inductive WordCasing
  | upper
  | lower
  | mixed
deriving DecidableEq

/-- Loop of `determineCasingPattern`, carrying the `hasUpper` / `hasLower`
flags, with the early `MIXED` return. -/
def determineCasingPatternGo : List Nat → Bool → Bool → WordCasing
  | [], hU, hL =>
    if hU && !hL then .upper
    else if hL && !hU then .lower
    else .lower
  | c :: cs, hU, hL =>
    if isArmLetter c then
      let hU' := hU || isCharUppercase c
      let hL' := hL || !(isCharUppercase c)
      if hU' && hL' then .mixed
      else determineCasingPatternGo cs hU' hL'
    else determineCasingPatternGo cs hU hL

/-- Model of `determineCasingPattern(word, isArmenianLetter,
isCharUppercase)` as the Latin and Russian pipelines instantiate it. -/
def determineCasingPattern (w : List Nat) : WordCasing :=
  determineCasingPatternGo w false false

/-- Model of `applyCasingPattern`. -/
def applyCasingPattern (t : List Nat) : WordCasing → List Nat
  | .upper => t.map toUpperN
  | .lower => t.map toLowerN
  | .mixed =>
    match t with
    | [] => []
    | c :: rest => toUpperN c :: rest.map toLowerN

/-- Model of `replaceArmenianPunctuation`: sequential
`split(mark).join(replacement)` over the entries of
`ARM_PUNCTUATION_MAP`, each a global single-character replacement. -/
def replaceArmenianPunctuation (t : List Nat) : List Nat :=
  ARM_PUNCTUATION_MAP.foldl (fun s kv => replaceAllStr [kv.1] [kv.2] s) t

namespace Latin

/-- Model of `ARM_TO_LAT_MAP` (`src/latin/constants.ts`). -/
def ARM_TO_LAT_MAP : List (Nat × List Nat) :=
  [(C 'ա', S "a"), (C 'Ա', S "a"), (C 'բ', S "b"), (C 'Բ', S "b"),
   (C 'գ', S "g"), (C 'Գ', S "g"), (C 'դ', S "d"), (C 'Դ', S "d"),
   (C 'ե', S "e"), (C 'Ե', S "e"), (C 'զ', S "z"), (C 'Զ', S "z"),
   (C 'է', S "e"), (C 'Է', S "e"), (C 'ը', S "ə"), (C 'Ը', S "ə"),
   (C 'թ', S "t" ++ [apos]), (C 'Թ', S "t" ++ [apos]),
   (C 'ժ', S "zh"), (C 'Ժ', S "zh"), (C 'ի', S "i"), (C 'Ի', S "i"),
   (C 'լ', S "l"), (C 'Լ', S "l"), (C 'խ', S "kh"), (C 'Խ', S "kh"),
   (C 'ծ', S "ts"), (C 'Ծ', S "ts"), (C 'կ', S "k"), (C 'Կ', S "k"),
   (C 'հ', S "h"), (C 'Հ', S "h"), (C 'ձ', S "dz"), (C 'Ձ', S "dz"),
   (C 'ղ', S "gh"), (C 'Ղ', S "gh"),
   (C 'ճ', S "ch" ++ [apos]), (C 'Ճ', S "ch" ++ [apos]),
   (C 'մ', S "m"), (C 'Մ', S "m"), (C 'յ', S "y"), (C 'Յ', S "y"),
   (C 'ն', S "n"), (C 'Ն', S "n"), (C 'շ', S "sh"), (C 'Շ', S "sh"),
   (C 'ո', S "o"), (C 'Ո', S "o"), (C 'չ', S "ch"), (C 'Չ', S "ch"),
   (C 'պ', S "p"), (C 'Պ', S "p"), (C 'ջ', S "j"), (C 'Ջ', S "j"),
   (C 'ռ', S "r"), (C 'Ռ', S "r"), (C 'ս', S "s"), (C 'Ս', S "s"),
   (C 'վ', S "v"), (C 'Վ', S "v"), (C 'տ', S "t"), (C 'Տ', S "t"),
   (C 'ր', S "r"), (C 'Ր', S "r"), (C 'ց', S "ts"), (C 'Ց', S "ts"),
   (C 'ւ', S "u"), (C 'Ւ', S "u"),
   (C 'փ', S "p" ++ [apos]), (C 'Փ', S "p" ++ [apos]),
   (C 'ք', S "k" ++ [apos]), (C 'Ք', S "k" ++ [apos]),
   (C 'օ', S "o"), (C 'Օ', S "o"), (C 'ֆ', S "f"), (C 'Ֆ', S "f")]

/-- Forward part of `TEMP_SYMBOLS_MAP` (`src/latin/constants.ts`), in
insertion order: ու / Ու become U+2042, and և / եւ / Եւ become U+00A4. -/
def TEMP_SYMBOLS_FORWARD : List (List Nat × List Nat) :=
  [(S "ու", [0x2042]), (S "Ու", [0x2042]),
   (S "և", [0xA4]), (S "եւ", [0xA4]), (S "Եւ", [0xA4])]

/-- Backward part of `TEMP_SYMBOLS_MAP` (`src/latin/constants.ts`). -/
def TEMP_SYMBOLS_BACKWARD : List (Nat × List Nat) :=
  [(0x2042, S "u"), (0xA4, S "ev")]

/-- Model of `mapArmenianCharToLatin` (`src/latin/transformations.ts`):
`backward[ch] ?? ARM_TO_LAT_MAP[ch] ?? ch`. -/
def mapArmenianCharToLatin (n : Nat) : List Nat :=
  match TEMP_SYMBOLS_BACKWARD.lookup n with
  | some r => r
  | none =>
    match ARM_TO_LAT_MAP.lookup n with
    | some r => r
    | none => [n]

/-- Model of `isArmenianVowel` (`src/latin/utils.ts`): any temporary
symbol counts as a vowel, otherwise membership in `ARM_VOWELS`. -/
def isArmenianVowel (n : Nat) : Bool :=
  (TEMP_SYMBOLS_BACKWARD.lookup n).isSome || ARM_VOWELS.contains n

/-- Mapped second character, or the empty string when absent (the
`secondChar ? map(secondChar) : ""` idiom of the rule transliterations
and of the default branch). -/
def optMap (second : Option Nat) : List Nat :=
  match second with
  | some c => mapArmenianCharToLatin c
  | none => []

/-- Model of `FIRST_CHAR_RULES` (`src/latin/rules.ts`) together with the
default branch of `applyFirstCharRules` (`src/latin/index.ts`): the rules
are tried in order (YeRule, VoRule, YevRule), the first match wins. -/
def applyFirstCharRules (first : Nat) (second : Option Nat) : List Nat :=
  if first == C 'Ե' then
    S "Ye" ++ optMap second
  else if first == C 'Ո' || first == C 'ո' then
    let isNextCharVowelOrV :=
      match second with
      | some c => isArmenianVowel c || c == C 'վ' || c == C 'Վ'
      | none => false
    (if isNextCharVowelOrV then S "o" else S "vo") ++ optMap second
  else if first == 0xA4 then
    S "yev" ++ optMap second
  else
    mapArmenianCharToLatin first ++ optMap second

/-- Model of `normalizeArmenianWord` (`src/latin/index.ts`): ligature
expansion followed by the forward sequence substitutions, all global. -/
def normalizeArmenianWord (w : List Nat) : List Nat :=
  runPasses (ARMENIAN_LIGATURES ++ TEMP_SYMBOLS_FORWARD) w

/-- Model of `transliterateArmenianWordRaw` (`src/latin/index.ts`): rules
on the first one or two characters, then the per-character map; when no
second character exists the remainder loop is skipped (it is empty). -/
def transliterateArmenianWordRaw : List Nat → List Nat
  | [] => []
  | [c] => applyFirstCharRules c none
  | c1 :: c2 :: rest =>
    applyFirstCharRules c1 (some c2) ++ (rest.map mapArmenianCharToLatin).flatten

/-- Model of `applyOriginalCasingPattern` (`src/latin/index.ts`). -/
def applyOriginalCasingPattern (originalWord rawLatinWord : List Nat) : List Nat :=
  applyCasingPattern rawLatinWord (determineCasingPattern originalWord)

/-- Model of `transliterateArmenianWord` (`src/latin/index.ts`). -/
def transliterateArmenianWord (w : List Nat) : List Nat :=
  applyOriginalCasingPattern w (transliterateArmenianWordRaw (normalizeArmenianWord w))

/-- Per-token processing inside `transliterateArmenianTextToEng`:
punctuation substitution, then, if the token still contains an Armenian
letter, whitespace splitting, per-word transliteration and single-space
rejoining. -/
def processToken (t : List Nat) : List Nat :=
  let t' := replaceArmenianPunctuation t
  if t'.any isArmLetter then
    List.intercalate [C ' '] ((splitOnWhitespace t').map transliterateArmenianWord)
  else t'

/-- Model of `transliterateArmenianTextToEng` (`src/latin/index.ts`). -/
def transliterateArmenianTextToEng (text : List Nat) : List Nat :=
  ((splitTextPreservingDelimiters text).map processToken).flatten

end Latin

namespace Russian

/-- Model of `ARM_TO_RUS_MAP` (`src/russian/constants.ts`, the version
whose sentinel table carries the four Cyrillic sentinels below; uppercase
Armenian letters map to uppercase Cyrillic strings). -/
def ARM_TO_RUS_MAP : List (Nat × List Nat) :=
  [(C 'ա', S "а"), (C 'Ա', S "А"), (C 'բ', S "б"), (C 'Բ', S "Б"),
   (C 'գ', S "г"), (C 'Գ', S "Г"), (C 'դ', S "д"), (C 'Դ', S "Д"),
   (C 'ե', S "е"), (C 'Ե', S "Е"), (C 'զ', S "з"), (C 'Զ', S "З"),
   (C 'է', S "э"), (C 'Է', S "Э"), (C 'ը', S "ы"), (C 'Ը', S "Ы"),
   (C 'թ', S "т"), (C 'Թ', S "Т"), (C 'ժ', S "ж"), (C 'Ժ', S "Ж"),
   (C 'ի', S "и"), (C 'Ի', S "И"), (C 'լ', S "л"), (C 'Լ', S "Л"),
   (C 'խ', S "х"), (C 'Խ', S "Х"), (C 'ծ', S "ц"), (C 'Ծ', S "Ц"),
   (C 'կ', S "к"), (C 'Կ', S "К"), (C 'հ', S "х"), (C 'Հ', S "Х"),
   (C 'ձ', S "дз"), (C 'Ձ', S "Дз"), (C 'ղ', S "г"), (C 'Ղ', S "Г"),
   (C 'ճ', S "ч" ++ [apos]), (C 'Ճ', S "Ч" ++ [apos]),
   (C 'մ', S "м"), (C 'Մ', S "М"), (C 'յ', S "й"), (C 'Յ', S "Й"),
   (C 'ն', S "н"), (C 'Ն', S "Н"), (C 'շ', S "ш"), (C 'Շ', S "Ш"),
   (C 'ո', S "о"), (C 'Ո', S "О"), (C 'չ', S "ч"), (C 'Չ', S "Ч"),
   (C 'պ', S "п"), (C 'Պ', S "П"), (C 'ջ', S "ж"), (C 'Ջ', S "Ж"),
   (C 'ռ', S "р"), (C 'Ռ', S "Р"), (C 'ս', S "с"), (C 'Ս', S "С"),
   (C 'վ', S "в"), (C 'Վ', S "В"), (C 'տ', S "т"), (C 'Տ', S "Т"),
   (C 'ր', S "р"), (C 'Ր', S "Р"), (C 'ց', S "ц"), (C 'Ց', S "Ц"),
   (C 'ւ', S "у"), (C 'Ւ', S "У"),
   (C 'փ', S "п" ++ [apos]), (C 'Փ', S "П" ++ [apos]),
   (C 'ք', S "к" ++ [apos]), (C 'Ք', S "К" ++ [apos]),
   (C 'օ', S "о"), (C 'Օ', S "О"), (C 'ֆ', S "ф"), (C 'Ֆ', S "Ф")]

/-- Forward part of the Russian `TEMP_SYMBOLS_MAP`, in insertion order
(the source comments that the order matters: longer sequences first):
յու / Յու → U+2117, յա / Յա → U+203D, ու / Ու → U+2042,
և / եւ / Եւ → U+00A4. -/
def TEMP_SYMBOLS_FORWARD : List (List Nat × List Nat) :=
  [(S "յու", [0x2117]), (S "Յու", [0x2117]),
   (S "յա", [0x203D]), (S "Յա", [0x203D]),
   (S "ու", [0x2042]), (S "Ու", [0x2042]),
   (S "և", [0xA4]), (S "եւ", [0xA4]), (S "Եւ", [0xA4])]

/-- Backward part of the Russian `TEMP_SYMBOLS_MAP`. -/
def TEMP_SYMBOLS_BACKWARD : List (Nat × List Nat) :=
  [(0x2042, S "у"), (0xA4, S "ев"), (0x203D, S "я"), (0x2117, S "ю")]

/-- Model of `mapArmenianCharToRussian` (`src/russian/transformations.ts`):
`backward[ch] ?? ARM_TO_RUS_MAP[ch] ?? ch`. -/
def mapArmenianCharToRussian (n : Nat) : List Nat :=
  match TEMP_SYMBOLS_BACKWARD.lookup n with
  | some r => r
  | none =>
    match ARM_TO_RUS_MAP.lookup n with
    | some r => r
    | none => [n]

/-- Modelled from the spec: the Russian `isArmenianVowel`
(`src/russian/utils.ts` is not in the snapshot) treats every sentinel of
the Russian backward map as a vowel and otherwise tests `ARM_VOWELS`,
mirroring the Latin `isArmenianVowel` the spec describes for both
pipelines. -/
def isArmenianVowel (n : Nat) : Bool :=
  (TEMP_SYMBOLS_BACKWARD.lookup n).isSome || ARM_VOWELS.contains n

/-- Mapped second character or empty string (the
`secondChar ? map(secondChar) : ""` idiom). -/
def optMap (second : Option Nat) : List Nat :=
  match second with
  | some c => mapArmenianCharToRussian c
  | none => []

/-- Model of the Russian `FIRST_CHAR_RULES` (`src/russian/rules.ts`)
with the default branch of `applyFirstCharRules`: YeRule maps a leading
Ե to "Е", VoRule maps a leading Ո/ո to "о" or "во", YevRule recognises
the code point U+058E that the older sentinel table used for the
conjunction letter; with the current sentinel U+00A4 a conjunction-initial
word instead reaches the default branch, whose backward lookup also
produces "ев". -/
def applyFirstCharRules (first : Nat) (second : Option Nat) : List Nat :=
  if first == C 'Ե' then
    S "Е" ++ optMap second
  else if first == C 'Ո' || first == C 'ո' then
    let isNextCharVowelOrV :=
      match second with
      | some c => isArmenianVowel c || c == C 'վ' || c == C 'Վ'
      | none => false
    (if isNextCharVowelOrV then S "о" else S "во") ++ optMap second
  else if first == C '֎' then
    S "ев" ++ optMap second
  else
    mapArmenianCharToRussian first ++ optMap second

/-- Modelled from the spec: the Russian word normaliser (the Russian
pipeline driver `src/russian/index.ts` is not in the snapshot) expands
ligatures and then substitutes the forward sequences of the Russian
sentinel table in their listed order, exactly as the Latin
`normalizeArmenianWord` does with the Latin table. -/
def normalizeArmenianWord (w : List Nat) : List Nat :=
  runPasses (ARMENIAN_LIGATURES ++ TEMP_SYMBOLS_FORWARD) w

/-- Modelled from the spec: the Russian raw word transliteration mirrors
the Latin `transliterateArmenianWordRaw` with the Russian rules and
character map. -/
def transliterateArmenianWordRaw : List Nat → List Nat
  | [] => []
  | [c] => applyFirstCharRules c none
  | c1 :: c2 :: rest =>
    applyFirstCharRules c1 (some c2) ++ (rest.map mapArmenianCharToRussian).flatten

/-- Modelled from the spec: the Russian per-word pipeline mirrors the
Latin `transliterateArmenianWord` (normalise, transliterate raw, reapply
the original casing pattern). -/
def transliterateArmenianWord (w : List Nat) : List Nat :=
  applyCasingPattern (transliterateArmenianWordRaw (normalizeArmenianWord w))
    (determineCasingPattern w)

/-- Modelled from the spec: per-token processing of the Russian text
pipeline, mirroring the Latin one. -/
def processToken (t : List Nat) : List Nat :=
  let t' := replaceArmenianPunctuation t
  if t'.any isArmLetter then
    List.intercalate [C ' '] ((splitOnWhitespace t').map transliterateArmenianWord)
  else t'

/-- Modelled from the spec: `transliterateArmenianTextToRus`
(`src/russian/index.ts` is not in the snapshot; only its caller in
`src/index.ts` is).  The spec defines each script pipeline as the same
tokenise / substitute punctuation / transliterate words / reassemble
cycle, so the driver mirrors `transliterateArmenianTextToEng`. -/
def transliterateArmenianTextToRus (text : List Nat) : List Nat :=
  ((splitTextPreservingDelimiters text).map processToken).flatten

end Russian

/-- Model of `transliterate` (`src/index.ts`): a switch on the language
tag with cases "en" and "ru" and no default clause, so a call with any
other tag falls through the switch and returns `undefined` (modelled as
`none`). -/
def transliterate (text : List Nat) (language : List Nat) : Option (List Nat) :=
  if language = S "en" then some (Latin.transliterateArmenianTextToEng text)
  else if language = S "ru" then some (Russian.transliterateArmenianTextToRus text)
  else none

/-- Model of a call `transliterate(text)` relying on the default
parameter value "en". -/
def transliterateDefault (text : List Nat) : Option (List Nat) :=
  transliterate text (S "en")

namespace Consolidated

/-!
Embedding of the consolidated single-file Latin implementation (the
`armenian.ts`-style module of the snapshot).  Its per-character map,
punctuation map, vowel set, ligature list, split regex and casing engine
coincide with the common/Latin modules above and are shared; its sentinel
table differs: ու / Ու → ֏ (U+058F) and և / եւ / Եւ → ֎ (U+058E), with
backward entries ֏ → "u" and ֎ → "ev".
-/

/-- Forward part of the consolidated `TEMP_SYMBOLS_MAP`. -/
def TEMP_SYMBOLS_FORWARD : List (List Nat × List Nat) :=
  [(S "ու", [C '֏']), (S "Ու", [C '֏']),
   (S "և", [C '֎']), (S "եւ", [C '֎']), (S "Եւ", [C '֎'])]

/-- Backward part of the consolidated `TEMP_SYMBOLS_MAP`. -/
def TEMP_SYMBOLS_BACKWARD : List (Nat × List Nat) :=
  [(C '֏', S "u"), (C '֎', S "ev")]

/-- Consolidated `mapArmenianCharToLatin`:
`backward[ch]`, else `ARM_TO_LAT_MAP[ch]`, else the character itself. -/
def mapArmenianCharToLatin (n : Nat) : List Nat :=
  match TEMP_SYMBOLS_BACKWARD.lookup n with
  | some r => r
  | none =>
    match Latin.ARM_TO_LAT_MAP.lookup n with
    | some r => r
    | none => [n]

/-- Consolidated `isArmenianVowel`: temporary symbols (֏, ֎) count as
vowels, otherwise membership in `ARM_VOWELS`. -/
def isArmenianVowel (n : Nat) : Bool :=
  (TEMP_SYMBOLS_BACKWARD.lookup n).isSome || ARM_VOWELS.contains n

/-- Mapped second character or empty string. -/
def optMap (second : Option Nat) : List Nat :=
  match second with
  | some c => mapArmenianCharToLatin c
  | none => []

/-- Consolidated `FIRST_CHAR_RULES` with the default branch of
`applyFirstCharRules`: YeRule on Ե gives "Ye", VoRule on Ո/ո gives "o" or
"vo", YevRule on the sentinel ֎ gives "yev". -/
def applyFirstCharRules (first : Nat) (second : Option Nat) : List Nat :=
  if first == C 'Ե' then
    S "Ye" ++ optMap second
  else if first == C 'Ո' || first == C 'ո' then
    let isNextCharVowelOrV :=
      match second with
      | some c => isArmenianVowel c || c == C 'վ' || c == C 'Վ'
      | none => false
    (if isNextCharVowelOrV then S "o" else S "vo") ++ optMap second
  else if first == C '֎' then
    S "yev" ++ optMap second
  else
    mapArmenianCharToLatin first ++ optMap second

/-- Consolidated `normalizeArmenianWord`. -/
def normalizeArmenianWord (w : List Nat) : List Nat :=
  runPasses (ARMENIAN_LIGATURES ++ TEMP_SYMBOLS_FORWARD) w

/-- Consolidated `transliterateArmenianWordRaw`. -/
def transliterateArmenianWordRaw : List Nat → List Nat
  | [] => []
  | [c] => applyFirstCharRules c none
  | c1 :: c2 :: rest =>
    applyFirstCharRules c1 (some c2) ++ (rest.map mapArmenianCharToLatin).flatten

/-- Consolidated `transliterateArmenianWord`
(`finalizeArmenianWordCasing` composed over the raw transliteration of
the normalised word). -/
def transliterateArmenianWord (w : List Nat) : List Nat :=
  applyCasingPattern (transliterateArmenianWordRaw (normalizeArmenianWord w))
    (determineCasingPattern w)

/-- Per-token processing of the consolidated `transliterateArmenianText`. -/
def processToken (t : List Nat) : List Nat :=
  let t' := replaceArmenianPunctuation t
  if t'.any isArmLetter then
    List.intercalate [C ' '] ((splitOnWhitespace t').map transliterateArmenianWord)
  else t'

/-- Consolidated `transliterateArmenianText` (main entry point of the
consolidated implementation). -/
def transliterateArmenianText (text : List Nat) : List Nat :=
  ((splitTextPreservingDelimiters text).map processToken).flatten

end Consolidated

namespace Latin

/-!
Exception-aware variant of the Latin pipeline.  The source of
`transliterateArmenianWordRaw` contains one defensive `throw`: after the
zero-length early return, the destructured first character is tested with
`!firstChar` and an error is thrown when it is absent.  The variant below
keeps that branch (`head?` returning `none`) and threads `Except`
through the word and text pipelines, so that reachability of the branch
becomes a provable statement.
-/

/-- Model of `transliterateArmenianWordRaw` with its defensive error
branch: the guard corresponds to the destructured first character being
absent after the zero-length early return. -/
def transliterateArmenianWordRawE (w : List Nat) : Except (List Nat) (List Nat) :=
  if w.length = 0 then .ok []
  else
    match w.head? with
    | none => .error (S "Unexpected empty first character in transliterateArmenianWordRaw")
    | some first =>
      match w.tail.head? with
      | none => .ok (applyFirstCharRules first none)
      | some second =>
        .ok (applyFirstCharRules first (some second) ++
          (w.tail.tail.map mapArmenianCharToLatin).flatten)

/-- Word pipeline threaded through `Except`. -/
def transliterateArmenianWordE (w : List Nat) : Except (List Nat) (List Nat) :=
  (transliterateArmenianWordRawE (normalizeArmenianWord w)).map
    (fun raw => applyOriginalCasingPattern w raw)

/-- Error-propagating map over a list. -/
def exceptMapList (f : List Nat → Except (List Nat) (List Nat)) :
    List (List Nat) → Except (List Nat) (List (List Nat))
  | [] => .ok []
  | x :: xs =>
    match f x with
    | .error e => .error e
    | .ok y =>
      match exceptMapList f xs with
      | .error e => .error e
      | .ok ys => .ok (y :: ys)

/-- Per-token processing threaded through `Except`. -/
def processTokenE (t : List Nat) : Except (List Nat) (List Nat) :=
  let t' := replaceArmenianPunctuation t
  if t'.any isArmLetter then
    (exceptMapList transliterateArmenianWordE (splitOnWhitespace t')).map
      (fun ws => List.intercalate [C ' '] ws)
  else .ok t'

/-- Whole-text Latin pipeline threaded through `Except`: it returns
`.error` exactly when some word reaches the defensive throw. -/
def transliterateArmenianTextToEngE (text : List Nat) : Except (List Nat) (List Nat) :=
  (exceptMapList processTokenE (splitTextPreservingDelimiters text)).map
    (fun ts => ts.flatten)

end Latin

/-!
Algebraic facts about the replacement scanner and the tokenizer, used by
the idempotence and longest-sequence claims.
-/

/-- A pattern is a prefix of itself followed by anything. -/
theorem isPref_append_self (ps b : List Nat) : isPref ps (ps ++ b) = true := by
  induction ps with
  | nil => rfl
  | cons a as ih => simp [isPref, ih]

/-- Scanning a segment that never contains the pattern head copies the
segment verbatim: no match can start inside it. -/
theorem replGo_inert_append (p : Nat) (ps rep : List Nat) (seg : List Nat) :
    ∀ x : List Nat, (∀ c ∈ seg, c ≠ p) →
    replGo p ps rep (seg ++ x) 0 = seg ++ replGo p ps rep x 0 := by
  induction seg with
  | nil => intro x _; rfl
  | cons c cs ih =>
    intro x h
    have hc : (p == c) = false := by
      have := h c (List.mem_cons_self c cs)
      simp [beq_iff_eq]
      exact fun hh => this hh.symm
    simp only [List.cons_append, replGo, hc, Bool.false_and, Bool.false_eq_true, if_false,
      List.append_eq]
    rw [ih x (fun d hd => h d (List.mem_cons_of_mem c hd))]

/-- Skipping exactly the length of a block drops that block. -/
theorem replGo_skip (p : Nat) (ps rep : List Nat) (d : List Nat) :
    ∀ x : List Nat, replGo p ps rep (d ++ x) d.length = replGo p ps rep x 0 := by
  induction d with
  | nil => intro x; rfl
  | cons e d' ih =>
    intro x
    simp only [List.cons_append, List.length_cons, replGo, List.append_eq]
    exact ih x

/-- A match at the head of the scan: the pattern block is replaced and the
scan continues after it. -/
theorem replGo_head (p : Nat) (ps rep b : List Nat) :
    replGo p ps rep ((p :: ps) ++ b) 0 = rep ++ replGo p ps rep b 0 := by
  simp only [List.cons_append, replGo, beq_self_eq_true, Bool.true_and, List.append_eq,
    isPref_append_self, if_true]
  rw [replGo_skip]

/-- Global replacement distributes over a leading segment free of the
pattern head character. -/
theorem replaceAllStr_inert_append (pat rep seg x : List Nat)
    (h : ∀ c ∈ seg, pat.head? ≠ some c) :
    replaceAllStr pat rep (seg ++ x) = seg ++ replaceAllStr pat rep x := by
  cases pat with
  | nil => rfl
  | cons p ps =>
    exact replGo_inert_append p ps rep seg x
      (fun c hc he => h c hc (by simp [he]))

/-- Global replacement of a pattern sitting right after an inert segment. -/
theorem replaceAllStr_head (p : Nat) (ps rep b : List Nat) :
    replaceAllStr (p :: ps) rep ((p :: ps) ++ b) = rep ++ replaceAllStr (p :: ps) rep b :=
  replGo_head p ps rep b

/-- A single-character pattern absent from the string leaves it unchanged. -/
theorem replaceAllStr_not_mem (p : Nat) (r s : List Nat) (h : p ∉ s) :
    replaceAllStr [p] r s = s := by
  have h2 := replGo_inert_append p [] r s []
    (fun c hc he => h (he ▸ hc))
  simpa [replaceAllStr, replGo] using h2

/-- A cascade of replacement passes distributes over a leading segment in
which no pass can start a match. -/
theorem runPasses_inert_append (passes : List (List Nat × List Nat)) :
    ∀ seg x : List Nat, (∀ pr ∈ passes, ∀ c ∈ seg, pr.1.head? ≠ some c) →
    runPasses passes (seg ++ x) = seg ++ runPasses passes x := by
  induction passes with
  | nil => intro seg x _; rfl
  | cons pr prs ih =>
    intro seg x h
    simp only [runPasses, List.foldl_cons]
    rw [replaceAllStr_inert_append pr.1 pr.2 seg x
      (h pr (List.mem_cons_self pr prs))]
    exact ih seg _ (fun q hq => h q (List.mem_cons_of_mem pr hq))

/-- Composition of pass cascades. -/
theorem runPasses_append (ps qs : List (List Nat × List Nat)) (w : List Nat) :
    runPasses (ps ++ qs) w = runPasses qs (runPasses ps w) := by
  simp [runPasses, List.foldl_append]

/-- Sequential single-character replacement passes whose marks are all
absent leave the string unchanged. -/
theorem punctFold_id (pairs : List (Nat × Nat)) :
    ∀ t : List Nat, (∀ kv ∈ pairs, kv.1 ∉ t) →
    pairs.foldl (fun s kv => replaceAllStr [kv.1] [kv.2] s) t = t := by
  induction pairs with
  | nil => intro t _; rfl
  | cons kv kvs ih =>
    intro t h
    simp only [List.foldl_cons]
    rw [replaceAllStr_not_mem kv.1 [kv.2] t (h kv (List.mem_cons_self kv kvs))]
    exact ih t (fun q hq => h q (List.mem_cons_of_mem kv hq))

/-- The capturing split partitions the input: flattening the pieces gives
back the pending accumulator followed by the unscanned rest. -/
theorem splitCaptureGo_flatten (cs : List Nat) :
    ∀ (mode : SplitMode) (acc : List Nat),
    (splitCaptureGo mode acc cs).flatten = acc.reverse ++ cs := by
  induction cs with
  | nil => intro mode acc; cases mode <;> simp [splitCaptureGo]
  | cons c cs ih =>
    intro mode acc
    cases mode <;> simp only [splitCaptureGo] <;> split_ifs <;>
      simp [ih, List.flatten]

/-- Every character of every piece of the capturing split comes from the
accumulator or from the unscanned input. -/
theorem splitCaptureGo_mem (cs : List Nat) (mode : SplitMode) (acc piece : List Nat)
    (hp : piece ∈ splitCaptureGo mode acc cs) : ∀ c ∈ piece, c ∈ acc ∨ c ∈ cs := by
  intro c hc
  have hfl : c ∈ (splitCaptureGo mode acc cs).flatten :=
    List.mem_flatten.mpr ⟨piece, hp, hc⟩
  rw [splitCaptureGo_flatten] at hfl
  rcases List.mem_append.mp hfl with h | h
  · exact Or.inl (List.mem_reverse.mp h)
  · exact Or.inr h

/-!
Claim theorems.
-/

/-- C1 counterexample: the single guillemet "«" contains no Armenian
letter (it does not match `ARMENIAN_LETTER_REGEX`), yet the Latin
whole-text transliteration rewrites it to a straight quote through
`ARM_PUNCTUATION_MAP`, so `transliterate(text) == text` fails for it. -/
theorem c1_nonArmenian_counterexample :
    (∀ c ∈ S "«", isArmLetter c = false) ∧
    Latin.transliterateArmenianTextToEng (S "«") ≠ S "«" := by decide

/-- C1 (amended): for every input that contains no character matching
`ARMENIAN_LETTER_REGEX` and no guillemet « or », the Latin whole-text
transliteration returns the input unchanged.  (The other nine marks of
`ARM_PUNCTUATION_MAP` all lie inside the Armenian block and are already
excluded by the first hypothesis.) -/
theorem c1_nonArmenian_identity (t : List Nat)
    (harm : ∀ c ∈ t, isArmLetter c = false)
    (hguill : ∀ c ∈ t, c ≠ C '«' ∧ c ≠ C '»') :
    Latin.transliterateArmenianTextToEng t = t := by
  have hkeys : ∀ kv ∈ ARM_PUNCTUATION_MAP,
      isArmLetter kv.1 = true ∨ kv.1 = C '«' ∨ kv.1 = C '»' := by decide
  have htok : ∀ piece ∈ splitTextPreservingDelimiters t, Latin.processToken piece = piece := by
    intro piece hp
    have hsub : ∀ c ∈ piece, c ∈ t := by
      intro c hc
      have := splitCaptureGo_mem t .text [] piece hp c hc
      simpa using this
    have hpunct : replaceArmenianPunctuation piece = piece := by
      apply punctFold_id
      intro kv hkv hmem
      have hkt := hsub kv.1 hmem
      rcases hkeys kv hkv with h1 | h2 | h3
      · rw [harm kv.1 hkt] at h1; cases h1
      · exact (hguill kv.1 hkt).1 h2
      · exact (hguill kv.1 hkt).2 h3
    have hany : (replaceArmenianPunctuation piece).any isArmLetter = false := by
      rw [hpunct, List.any_eq_false]
      intro c hc
      simp [harm c (hsub c hc)]
    simp only [Latin.processToken]
    rw [hpunct] at hany ⊢
    simp [hany]
  have hmap : List.map Latin.processToken (splitTextPreservingDelimiters t) =
      List.map id (splitTextPreservingDelimiters t) := List.map_congr_left htok
  show (List.map Latin.processToken (splitTextPreservingDelimiters t)).flatten = t
  rw [hmap, List.map_id]
  simpa using splitCaptureGo_flatten t .text []

/-- C1 witness: a concrete Armenian-free, guillemet-free string passes
through the Latin pipeline unchanged. -/
theorem c1_nonArmenian_identity_witness :
    (∀ c ∈ S "hello, world! 123", isArmLetter c = false) ∧
    Latin.transliterateArmenianTextToEng (S "hello, world! 123") = S "hello, world! 123" :=
  ⟨by decide, c1_nonArmenian_identity (S "hello, world! 123") (by decide) (by decide)⟩

/-!
Casing-pattern facts used by the casing claim.
-/

/-- A code point is not lowercase as soon as lowercasing moves it or
uppercasing fixes it. -/
theorem isCharLowercase_eq_false (m : Nat) (h : toLowerN m ≠ m ∨ toUpperN m = m) :
    isCharLowercase m = false := by
  rcases h with h | h
  · simp [isCharLowercase, beq_eq_false_iff_ne.mpr h]
  · simp [isCharLowercase, h]

/-- A code point is not uppercase as soon as uppercasing moves it or
lowercasing fixes it. -/
theorem isCharUppercase_eq_false (m : Nat) (h : toUpperN m ≠ m ∨ toLowerN m = m) :
    isCharUppercase m = false := by
  rcases h with h | h
  · simp [isCharUppercase, beq_eq_false_iff_ne.mpr h]
  · simp [isCharUppercase, h]

/-- Uppercasing never produces a lowercase code point. -/
theorem isCharLowercase_toUpperN (n : Nat) : isCharLowercase (toUpperN n) = false := by
  apply isCharLowercase_eq_false
  by_cases h1 : 0x61 ≤ n ∧ n ≤ 0x7A
  · left
    rw [toUpperN, if_pos h1]
    unfold toLowerN
    split_ifs <;> omega
  · by_cases h2 : 0x561 ≤ n ∧ n ≤ 0x586
    · left
      rw [toUpperN, if_neg h1, if_pos h2]
      unfold toLowerN
      split_ifs <;> omega
    · by_cases h3 : 0x430 ≤ n ∧ n ≤ 0x44F
      · left
        rw [toUpperN, if_neg h1, if_neg h2, if_pos h3]
        unfold toLowerN
        split_ifs <;> omega
      · by_cases h4 : n = 0x259
        · left
          rw [toUpperN, if_neg h1, if_neg h2, if_neg h3, if_pos h4]
          decide
        · right
          have hn : toUpperN n = n := by
            rw [toUpperN, if_neg h1, if_neg h2, if_neg h3, if_neg h4]
          rw [hn]
          exact hn

/-- Lowercasing never produces an uppercase code point. -/
theorem isCharUppercase_toLowerN (n : Nat) : isCharUppercase (toLowerN n) = false := by
  apply isCharUppercase_eq_false
  by_cases h1 : 0x41 ≤ n ∧ n ≤ 0x5A
  · left
    rw [toLowerN, if_pos h1]
    unfold toUpperN
    split_ifs <;> omega
  · by_cases h2 : 0x531 ≤ n ∧ n ≤ 0x556
    · left
      rw [toLowerN, if_neg h1, if_pos h2]
      unfold toUpperN
      split_ifs <;> omega
    · by_cases h3 : 0x410 ≤ n ∧ n ≤ 0x42F
      · left
        rw [toLowerN, if_neg h1, if_neg h2, if_pos h3]
        unfold toUpperN
        split_ifs <;> omega
      · by_cases h4 : n = 0x18F
        · left
          rw [toLowerN, if_neg h1, if_neg h2, if_neg h3, if_pos h4]
          decide
        · right
          have hn : toLowerN n = n := by
            rw [toLowerN, if_neg h1, if_neg h2, if_neg h3, if_neg h4]
          rw [hn]
          exact hn

/-- With the upper flag set, the lower flag clear, and only uppercase
Armenian letters remaining, the casing scan returns UPPER. -/
theorem dcpGo_upper_of_flag (w : List Nat) :
    (∀ c ∈ w, isArmLetter c = true → isCharUppercase c = true) →
    determineCasingPatternGo w true false = .upper := by
  induction w with
  | nil => intro _; rfl
  | cons c cs ih =>
    intro h
    by_cases hc : isArmLetter c = true
    · have hu := h c (List.mem_cons_self c cs) hc
      simp only [determineCasingPatternGo, hc, hu, if_true]
      simpa using ih (fun d hd => h d (List.mem_cons_of_mem c hd))
    · simp only [determineCasingPatternGo, if_neg hc]
      exact ih (fun d hd => h d (List.mem_cons_of_mem c hd))

/-- A word whose Armenian letters are all uppercase, and which contains at
least one Armenian letter, classifies as UPPER. -/
theorem dcpGo_upper (w : List Nat) :
    (∀ c ∈ w, isArmLetter c = true → isCharUppercase c = true) →
    (∃ c ∈ w, isArmLetter c = true) →
    determineCasingPatternGo w false false = .upper := by
  induction w with
  | nil => rintro _ ⟨c, hc, _⟩; cases hc
  | cons c cs ih =>
    rintro h ⟨d, hd, hdl⟩
    by_cases hc : isArmLetter c = true
    · have hu := h c (List.mem_cons_self c cs) hc
      simp only [determineCasingPatternGo, hc, hu, if_true]
      simpa using dcpGo_upper_of_flag cs (fun e he => h e (List.mem_cons_of_mem c he))
    · simp only [determineCasingPatternGo, if_neg hc]
      rcases List.mem_cons.mp hd with rfl | hd'
      · exact absurd hdl hc
      · exact ih (fun e he => h e (List.mem_cons_of_mem c he)) ⟨d, hd', hdl⟩

/-- With the upper flag clear and no uppercase Armenian letter remaining,
the casing scan returns LOWER whatever the lower flag holds. -/
theorem dcpGo_lower (w : List Nat) :
    (∀ c ∈ w, isArmLetter c = true → isCharUppercase c = false) →
    ∀ hL, determineCasingPatternGo w false hL = .lower := by
  induction w with
  | nil => intro _ hL; cases hL <;> rfl
  | cons c cs ih =>
    intro h hL
    by_cases hc : isArmLetter c = true
    · have hu := h c (List.mem_cons_self c cs) hc
      simp only [determineCasingPatternGo, hc, hu, if_true, Bool.or_false, Bool.not_false,
        Bool.or_true, Bool.false_and, Bool.false_eq_true, if_false, Bool.false_or]
      exact ih (fun d hd => h d (List.mem_cons_of_mem c hd)) true
    · simp only [determineCasingPatternGo, if_neg hc]
      exact ih (fun d hd => h d (List.mem_cons_of_mem c hd)) hL

/-- With the upper flag set and a non-uppercase Armenian letter ahead, the
casing scan returns MIXED. -/
theorem dcpGo_mixed_of_upper_flag (w : List Nat) :
    (∃ c ∈ w, isArmLetter c = true ∧ isCharUppercase c = false) →
    determineCasingPatternGo w true false = .mixed := by
  induction w with
  | nil => rintro ⟨c, hc, _⟩; cases hc
  | cons c cs ih =>
    rintro ⟨d, hd, hdl, hdu⟩
    by_cases hc : isArmLetter c = true
    · by_cases hu : isCharUppercase c = true
      · simp only [determineCasingPatternGo, hc, hu, if_true]
        apply ih
        rcases List.mem_cons.mp hd with rfl | hd'
        · rw [hu] at hdu; cases hdu
        · exact ⟨d, hd', hdl, hdu⟩
      · replace hu : isCharUppercase c = false := by
          cases h : isCharUppercase c
          · rfl
          · exact absurd h hu
        simp [determineCasingPatternGo, hc, hu]
    · simp only [determineCasingPatternGo, if_neg hc]
      apply ih
      rcases List.mem_cons.mp hd with rfl | hd'
      · exact absurd hdl hc
      · exact ⟨d, hd', hdl, hdu⟩

/-- With the lower flag set and an uppercase Armenian letter ahead, the
casing scan returns MIXED. -/
theorem dcpGo_mixed_of_lower_flag (w : List Nat) :
    (∃ c ∈ w, isArmLetter c = true ∧ isCharUppercase c = true) →
    determineCasingPatternGo w false true = .mixed := by
  induction w with
  | nil => rintro ⟨c, hc, _⟩; cases hc
  | cons c cs ih =>
    rintro ⟨d, hd, hdl, hdu⟩
    by_cases hc : isArmLetter c = true
    · by_cases hu : isCharUppercase c = true
      · simp [determineCasingPatternGo, hc, hu]
      · replace hu : isCharUppercase c = false := by
          cases h : isCharUppercase c
          · rfl
          · exact absurd h hu
        simp only [determineCasingPatternGo, hc, hu, if_true, Bool.or_false, Bool.not_false,
          Bool.or_true, Bool.true_or, Bool.false_and, Bool.false_or, Bool.false_eq_true,
          if_false, Bool.and_true]
        apply ih
        rcases List.mem_cons.mp hd with rfl | hd'
        · rw [hu] at hdu; cases hdu
        · exact ⟨d, hd', hdl, hdu⟩
    · simp only [determineCasingPatternGo, if_neg hc]
      apply ih
      rcases List.mem_cons.mp hd with rfl | hd'
      · exact absurd hdl hc
      · exact ⟨d, hd', hdl, hdu⟩

/-- A word with both an uppercase and a non-uppercase Armenian letter
classifies as MIXED. -/
theorem dcp_mixed (w : List Nat)
    (hup : ∃ c ∈ w, isArmLetter c = true ∧ isCharUppercase c = true)
    (hlo : ∃ c ∈ w, isArmLetter c = true ∧ isCharUppercase c = false) :
    determineCasingPattern w = .mixed := by
  unfold determineCasingPattern
  induction w with
  | nil => rcases hup with ⟨c, hc, _⟩; cases hc
  | cons c cs ih =>
    by_cases hc : isArmLetter c = true
    · by_cases hu : isCharUppercase c = true
      · simp only [determineCasingPatternGo, hc, hu, if_true]
        apply dcpGo_mixed_of_upper_flag
        rcases hlo with ⟨d, hd, hdl, hdu⟩
        rcases List.mem_cons.mp hd with rfl | hd'
        · rw [hu] at hdu; cases hdu
        · exact ⟨d, hd', hdl, hdu⟩
      · replace hu : isCharUppercase c = false := by
          cases h : isCharUppercase c
          · rfl
          · exact absurd h hu
        simp only [determineCasingPatternGo, hc, hu, if_true, Bool.or_false, Bool.not_false,
          Bool.or_true, Bool.true_or, Bool.false_and, Bool.false_or, Bool.false_eq_true,
          if_false, Bool.and_true]
        apply dcpGo_mixed_of_lower_flag
        rcases hup with ⟨d, hd, hdl, hdu⟩
        rcases List.mem_cons.mp hd with rfl | hd'
        · rw [hu] at hdu; cases hdu
        · exact ⟨d, hd', hdl, hdu⟩
    · simp only [determineCasingPatternGo, if_neg hc]
      apply ih
      · rcases hup with ⟨d, hd, hdl, hdu⟩
        rcases List.mem_cons.mp hd with rfl | hd'
        · exact absurd hdl hc
        · exact ⟨d, hd', hdl, hdu⟩
      · rcases hlo with ⟨d, hd, hdl, hdu⟩
        rcases List.mem_cons.mp hd with rfl | hd'
        · exact absurd hdl hc
        · exact ⟨d, hd', hdl, hdu⟩

/-- C2: casing round-trip of the Latin word pipeline.  A word with at
least one Armenian letter, all of whose Armenian letters are uppercase,
transliterates to the uppercased raw transliteration (which contains no
lowercase character); a word whose Armenian letters are all non-uppercase
(in particular a word with no Armenian letter) transliterates to the
lowercased raw transliteration (no uppercase character); a word with both
an uppercase and a non-uppercase Armenian letter transliterates to the
raw transliteration with its first character uppercased and the rest
lowercased, wherever those letters sit in the source word. -/
theorem c2_casing_roundtrip (w : List Nat) :
    ((∃ c ∈ w, isArmLetter c = true) ∧
       (∀ c ∈ w, isArmLetter c = true → isCharUppercase c = true) →
      Latin.transliterateArmenianWord w =
        (Latin.transliterateArmenianWordRaw (Latin.normalizeArmenianWord w)).map toUpperN ∧
      ∀ c ∈ Latin.transliterateArmenianWord w, isCharLowercase c = false) ∧
    ((∀ c ∈ w, isArmLetter c = true → isCharUppercase c = false) →
      Latin.transliterateArmenianWord w =
        (Latin.transliterateArmenianWordRaw (Latin.normalizeArmenianWord w)).map toLowerN ∧
      ∀ c ∈ Latin.transliterateArmenianWord w, isCharUppercase c = false) ∧
    ((∃ c ∈ w, isArmLetter c = true ∧ isCharUppercase c = true) ∧
       (∃ c ∈ w, isArmLetter c = true ∧ isCharUppercase c = false) →
      Latin.transliterateArmenianWord w =
        (match Latin.transliterateArmenianWordRaw (Latin.normalizeArmenianWord w) with
         | [] => []
         | c :: rest => toUpperN c :: rest.map toLowerN)) := by
  refine ⟨?_, ?_, ?_⟩
  · rintro ⟨hex, hall⟩
    have hpat : determineCasingPattern w = .upper := dcpGo_upper w hall hex
    have hout : Latin.transliterateArmenianWord w =
        (Latin.transliterateArmenianWordRaw (Latin.normalizeArmenianWord w)).map toUpperN := by
      unfold Latin.transliterateArmenianWord Latin.applyOriginalCasingPattern
      rw [hpat]
      rfl
    refine ⟨hout, ?_⟩
    intro c hc
    rw [hout] at hc
    rcases List.mem_map.mp hc with ⟨d, _, rfl⟩
    exact isCharLowercase_toUpperN d
  · intro hall
    have hpat : determineCasingPattern w = .lower := dcpGo_lower w hall false
    have hout : Latin.transliterateArmenianWord w =
        (Latin.transliterateArmenianWordRaw (Latin.normalizeArmenianWord w)).map toLowerN := by
      unfold Latin.transliterateArmenianWord Latin.applyOriginalCasingPattern
      rw [hpat]
      rfl
    refine ⟨hout, ?_⟩
    intro c hc
    rw [hout] at hc
    rcases List.mem_map.mp hc with ⟨d, _, rfl⟩
    exact isCharUppercase_toLowerN d
  · rintro ⟨hup, hlo⟩
    have hpat := dcp_mixed w hup hlo
    unfold Latin.transliterateArmenianWord Latin.applyOriginalCasingPattern
    rw [hpat]
    rfl

/-- C2 witness: the three casing buckets at concrete words ՄԱՍ, մաս and
Մաս. -/
theorem c2_casing_roundtrip_witness :
    ((∃ c ∈ S "ՄԱՍ", isArmLetter c = true) ∧
      (∀ c ∈ S "ՄԱՍ", isArmLetter c = true → isCharUppercase c = true) ∧
      Latin.transliterateArmenianWord (S "ՄԱՍ") = S "MAS") ∧
    Latin.transliterateArmenianWord (S "մաս") = S "mas" ∧
    Latin.transliterateArmenianWord (S "Մաս") = S "Mas" := by
  refine ⟨⟨by decide, by decide, ?_⟩, ?_, ?_⟩
  · rw [((c2_casing_roundtrip (S "ՄԱՍ")).1 ⟨by decide, by decide⟩).1]
    decide
  · rw [((c2_casing_roundtrip (S "մաս")).2.1 (by decide)).1]
    decide
  · rw [(c2_casing_roundtrip (S "Մաս")).2.2 ⟨by decide, by decide⟩]
    decide

/-- C3: the Vo rule.  For a normalized word starting with Ո or ո followed
by a second character, the first character renders as "o" (Latin) / "о"
(Russian) when that second character is in the Armenian vowel set, is a
sentinel code point of the pipeline, or is վ/Վ, and as "vo"/"во"
otherwise; the mapped second character is appended and the rest is mapped
per character.  Without a second character the rendering is "vo"/"во". -/
theorem c3_vo_rule (v : Nat) (hv : v = C 'Ո' ∨ v = C 'ո') :
    (∀ (c : Nat) (rest : List Nat),
      Latin.transliterateArmenianWordRaw (v :: c :: rest) =
        (if ARM_VOWELS.contains c = true ∨
            (Latin.TEMP_SYMBOLS_BACKWARD.lookup c).isSome = true ∨
            c = C 'վ' ∨ c = C 'Վ'
         then S "o" else S "vo") ++
        Latin.mapArmenianCharToLatin c ++
        (rest.map Latin.mapArmenianCharToLatin).flatten) ∧
    Latin.transliterateArmenianWordRaw [v] = S "vo" ∧
    (∀ (c : Nat) (rest : List Nat),
      Russian.transliterateArmenianWordRaw (v :: c :: rest) =
        (if ARM_VOWELS.contains c = true ∨
            (Russian.TEMP_SYMBOLS_BACKWARD.lookup c).isSome = true ∨
            c = C 'վ' ∨ c = C 'Վ'
         then S "о" else S "во") ++
        Russian.mapArmenianCharToRussian c ++
        (rest.map Russian.mapArmenianCharToRussian).flatten) ∧
    Russian.transliterateArmenianWordRaw [v] = S "во" := by
  have hlat : ∀ c, ((ARM_VOWELS.contains c = true ∨
      (Latin.TEMP_SYMBOLS_BACKWARD.lookup c).isSome = true ∨
      c = C 'վ' ∨ c = C 'Վ') ↔
      (Latin.isArmenianVowel c || c == C 'վ' || c == C 'Վ') = true) := by
    intro c
    simp only [Latin.isArmenianVowel, Bool.or_eq_true, beq_iff_eq]
    tauto
  have hrus : ∀ c, ((ARM_VOWELS.contains c = true ∨
      (Russian.TEMP_SYMBOLS_BACKWARD.lookup c).isSome = true ∨
      c = C 'վ' ∨ c = C 'Վ') ↔
      (Russian.isArmenianVowel c || c == C 'վ' || c == C 'Վ') = true) := by
    intro c
    simp only [Russian.isArmenianVowel, Bool.or_eq_true, beq_iff_eq]
    tauto
  rcases hv with rfl | rfl <;>
    refine ⟨?_, by decide, ?_, by decide⟩ <;> intro c rest <;>
    rw [if_congr (by first | exact hlat c | exact hrus c) rfl rfl] <;>
    simp [Latin.transliterateArmenianWordRaw, Latin.applyFirstCharRules, Latin.optMap,
      Russian.transliterateArmenianWordRaw, Russian.applyFirstCharRules, Russian.optMap,
      show ¬ ((C 'Ո' : Nat) = C 'Ե') from by decide,
      show ¬ ((C 'ո' : Nat) = C 'Ե') from by decide,
      show ¬ ((0xA4 : Nat) = C 'Ե') from by decide,
      show ¬ ((0xA4 : Nat) = C 'Ո') from by decide,
      show ¬ ((0xA4 : Nat) = C 'ո') from by decide,
      show ¬ ((0xA4 : Nat) = C '֎') from by decide,
      show ¬ ((C 'ե' : Nat) = C 'Ե') from by decide,
      show ¬ ((C 'ե' : Nat) = C 'Ո') from by decide,
      show ¬ ((C 'ե' : Nat) = C 'ո') from by decide,
      show ¬ ((C 'ե' : Nat) = 0xA4) from by decide,
      show ¬ ((C 'ե' : Nat) = C '֎') from by decide,
      List.append_assoc] <;> try decide

/-- C3 witness: Vo-rule outcomes at concrete words (Ոչ gives "vo",
Ով gives "o", standalone Ո gives "vo"). -/
theorem c3_vo_rule_witness :
    (C 'Ո' = C 'Ո' ∨ C 'Ո' = C 'ո') ∧
    Latin.transliterateArmenianWordRaw [C 'Ո', C 'չ'] = S "voch" ∧
    Latin.transliterateArmenianWordRaw [C 'Ո', C 'վ'] = S "ov" ∧
    Latin.transliterateArmenianWordRaw [C 'Ո'] = S "vo" ∧
    Russian.transliterateArmenianWordRaw [C 'Ո', C 'չ'] = S "воч" := by
  have h := c3_vo_rule (C 'Ո') (Or.inl rfl)
  refine ⟨Or.inl rfl, ?_, ?_, h.2.1, ?_⟩
  · rw [h.1 (C 'չ') []]; decide
  · rw [h.1 (C 'վ') []]; decide
  · rw [h.2.2.1 (C 'չ') []]; decide

/-- C4: the conjunction-letter rule.  A normalized word beginning with
the conjunction sentinel U+00A4 (produced from և, եւ and Եւ) renders
word-initially as "yev" (Latin) / "ев" (Russian) followed by the mapped
second character; mid-word the sentinel renders as its backward-map
string ("ev" / "ев"), as the concrete scenario դեռևս → derevs shows. -/
theorem c4_yev_rule :
    (∀ (c : Nat) (rest : List Nat),
      Latin.transliterateArmenianWordRaw (0xA4 :: c :: rest) =
        S "yev" ++ Latin.mapArmenianCharToLatin c ++
          (rest.map Latin.mapArmenianCharToLatin).flatten) ∧
    Latin.transliterateArmenianWordRaw [0xA4] = S "yev" ∧
    Latin.mapArmenianCharToLatin 0xA4 = S "ev" ∧
    Latin.normalizeArmenianWord (S "և") = [0xA4] ∧
    Latin.normalizeArmenianWord (S "եւ") = [0xA4] ∧
    Latin.normalizeArmenianWord (S "Եւ") = [0xA4] ∧
    Latin.transliterateArmenianWord (S "դեռևս") = S "derevs" ∧
    (∀ (c : Nat) (rest : List Nat),
      Russian.transliterateArmenianWordRaw (0xA4 :: c :: rest) =
        S "ев" ++ Russian.mapArmenianCharToRussian c ++
          (rest.map Russian.mapArmenianCharToRussian).flatten) ∧
    Russian.transliterateArmenianWordRaw [0xA4] = S "ев" ∧
    Russian.mapArmenianCharToRussian 0xA4 = S "ев" ∧
    Russian.normalizeArmenianWord (S "և") = [0xA4] := by
  refine ⟨?_, by decide, by decide, by decide, by decide, by decide, by decide,
    ?_, by decide, by decide, by decide⟩ <;> intro c rest <;>
    simp [Latin.transliterateArmenianWordRaw, Latin.applyFirstCharRules, Latin.optMap,
      Russian.transliterateArmenianWordRaw, Russian.applyFirstCharRules, Russian.optMap,
      show ¬ ((C 'Ո' : Nat) = C 'Ե') from by decide,
      show ¬ ((C 'ո' : Nat) = C 'Ե') from by decide,
      show ¬ ((0xA4 : Nat) = C 'Ե') from by decide,
      show ¬ ((0xA4 : Nat) = C 'Ո') from by decide,
      show ¬ ((0xA4 : Nat) = C 'ո') from by decide,
      show ¬ ((0xA4 : Nat) = C '֎') from by decide,
      show ¬ ((C 'ե' : Nat) = C 'Ե') from by decide,
      show ¬ ((C 'ե' : Nat) = C 'Ո') from by decide,
      show ¬ ((C 'ե' : Nat) = C 'ո') from by decide,
      show ¬ ((C 'ե' : Nat) = 0xA4) from by decide,
      show ¬ ((C 'ե' : Nat) = C '֎') from by decide,
      List.append_assoc] <;> try decide

/-- C6: the Ye rule.  A normalized word beginning with uppercase Ե
renders word-initially as "Ye" (Latin) / "Е" (Russian) followed by the
mapped second character; lowercase ե does not trigger the rule and goes
through the character map instead (ե → "e" / "е"). -/
theorem c6_ye_rule :
    (∀ (c : Nat) (rest : List Nat),
      Latin.transliterateArmenianWordRaw (C 'Ե' :: c :: rest) =
        S "Ye" ++ Latin.mapArmenianCharToLatin c ++
          (rest.map Latin.mapArmenianCharToLatin).flatten) ∧
    Latin.transliterateArmenianWordRaw [C 'Ե'] = S "Ye" ∧
    (∀ (c : Nat) (rest : List Nat),
      Latin.transliterateArmenianWordRaw (C 'ե' :: c :: rest) =
        Latin.mapArmenianCharToLatin (C 'ե') ++ Latin.mapArmenianCharToLatin c ++
          (rest.map Latin.mapArmenianCharToLatin).flatten) ∧
    Latin.mapArmenianCharToLatin (C 'ե') = S "e" ∧
    (∀ (c : Nat) (rest : List Nat),
      Russian.transliterateArmenianWordRaw (C 'Ե' :: c :: rest) =
        S "Е" ++ Russian.mapArmenianCharToRussian c ++
          (rest.map Russian.mapArmenianCharToRussian).flatten) ∧
    Russian.transliterateArmenianWordRaw [C 'Ե'] = S "Е" ∧
    (∀ (c : Nat) (rest : List Nat),
      Russian.transliterateArmenianWordRaw (C 'ե' :: c :: rest) =
        Russian.mapArmenianCharToRussian (C 'ե') ++ Russian.mapArmenianCharToRussian c ++
          (rest.map Russian.mapArmenianCharToRussian).flatten) ∧
    Russian.mapArmenianCharToRussian (C 'ե') = S "е" := by
  refine ⟨?_, by decide, ?_, by decide, ?_, by decide, ?_, by decide⟩ <;> intro c rest <;>
    simp [Latin.transliterateArmenianWordRaw, Latin.applyFirstCharRules, Latin.optMap,
      Russian.transliterateArmenianWordRaw, Russian.applyFirstCharRules, Russian.optMap,
      show ¬ ((C 'Ո' : Nat) = C 'Ե') from by decide,
      show ¬ ((C 'ո' : Nat) = C 'Ե') from by decide,
      show ¬ ((0xA4 : Nat) = C 'Ե') from by decide,
      show ¬ ((0xA4 : Nat) = C 'Ո') from by decide,
      show ¬ ((0xA4 : Nat) = C 'ո') from by decide,
      show ¬ ((0xA4 : Nat) = C '֎') from by decide,
      show ¬ ((C 'ե' : Nat) = C 'Ե') from by decide,
      show ¬ ((C 'ե' : Nat) = C 'Ո') from by decide,
      show ¬ ((C 'ե' : Nat) = C 'ո') from by decide,
      show ¬ ((C 'ե' : Nat) = 0xA4) from by decide,
      show ¬ ((C 'ե' : Nat) = C '֎') from by decide,
      List.append_assoc] <;> try decide

/-- Unfolding one replacement pass of a cascade. -/
theorem runPasses_cons (pr : List Nat × List Nat) (prs : List (List Nat × List Nat))
    (w : List Nat) :
    runPasses (pr :: prs) w = runPasses prs (replaceAllStr pr.1 pr.2 w) := rfl

/-- Capture lemma: in a cascade `pre ++ pass :: post`, an occurrence of
the pass pattern sitting after a segment `a` in which no pass of the
cascade can start a match is replaced whole by the pass replacement, and
the remainder of the word is processed by the full cascade. -/
theorem runPasses_capture (pre post : List (List Nat × List Nat)) (p : Nat)
    (ps rep a b : List Nat)
    (hpre : ∀ pr ∈ pre, ∀ c ∈ a ++ (p :: ps), pr.1.head? ≠ some c)
    (hmid : ∀ c ∈ a, ¬ (p = c))
    (hpost : ∀ pr ∈ post, ∀ c ∈ a ++ rep, pr.1.head? ≠ some c) :
    runPasses (pre ++ ((p :: ps, rep) :: post)) (a ++ ((p :: ps) ++ b)) =
      a ++ (rep ++ runPasses (pre ++ ((p :: ps, rep) :: post)) b) := by
  rw [runPasses_append, runPasses_append]
  rw [← List.append_assoc]
  rw [runPasses_inert_append pre (a ++ (p :: ps)) b hpre]
  rw [runPasses_cons, runPasses_cons]
  rw [List.append_assoc]
  rw [replaceAllStr_inert_append (p :: ps) rep a ((p :: ps) ++ runPasses pre b)
    (fun c hc he => hmid c hc (by injection he))]
  rw [replaceAllStr_head]
  rw [← List.append_assoc]
  rw [runPasses_inert_append post (a ++ rep)
    (replaceAllStr (p :: ps) rep (runPasses pre b)) hpost]
  rw [List.append_assoc]

/-- Lead characters of the Russian normalization passes: the five
presentation-form ligatures and the first characters of the nine forward
sequences of the Russian sentinel table.  No substitution pass can start
a match at a character outside this list. -/
def rusSequenceLeads : List Nat :=
  [C 'ﬓ', C 'ﬔ', C 'ﬕ', C 'ﬖ', C 'ﬗ',
   C 'յ', C 'Յ', C 'ո', C 'Ո', C 'և', C 'ե', C 'Ե']

/-!
Occurrence machinery: `occursB pat s` tests whether the literal pattern
occurs somewhere in `s` (the scan `replGo` fires exactly when it does).
It supports a hypothesis-free form of the longest-sequence claim.
-/

/-- Occurrence test for a literal pattern. -/
def occursB (pat : List Nat) : List Nat → Bool
  | [] => isPref pat []
  | c :: cs => isPref pat (c :: cs) || occursB pat cs

/-- A prefix relation gives a tail decomposition. -/
theorem isPref_decomp (ps : List Nat) :
    ∀ cs, isPref ps cs = true → ∃ cs', cs = ps ++ cs' := by
  induction ps with
  | nil => intro cs _; exact ⟨cs, rfl⟩
  | cons p ps' ih =>
    intro cs h
    cases cs with
    | nil => cases h
    | cons c cs2 =>
      simp only [isPref, Bool.and_eq_true, beq_iff_eq] at h
      rcases ih cs2 h.2 with ⟨cs', rfl⟩
      exact ⟨cs', by simp [h.1]⟩

/-- An occurrence survives prepending. -/
theorem occursB_append_left (sub : List Nat) :
    ∀ (y x : List Nat), occursB sub x = true → occursB sub (y ++ x) = true := by
  intro y
  induction y with
  | nil => intro x h; exact h
  | cons c ys ih =>
    intro x h
    simp only [List.cons_append, occursB, Bool.or_eq_true]
    exact Or.inr (ih x h)

/-- The empty pattern occurs everywhere. -/
theorem occursB_nil (s : List Nat) : occursB [] s = true := by
  cases s <;> simp [occursB, isPref]

/-- Characters outside the pattern survive the scan. -/
theorem mem_replGo_preserve (p : Nat) (ps rep : List Nat) (x : Nat)
    (hx : ¬ x ∈ p :: ps) :
    ∀ n, ∀ s : List Nat, s.length ≤ n → x ∈ s → x ∈ replGo p ps rep s 0 := by
  intro n
  induction n with
  | zero =>
    intro s hs hxs
    rw [List.eq_nil_of_length_eq_zero (Nat.le_zero.mp hs)] at hxs
    cases hxs
  | succ n ih =>
    intro s hs hxs
    cases s with
    | nil => cases hxs
    | cons c cs =>
      by_cases hfire : (p == c && isPref ps cs) = true
      · have hpc : p = c := by
          have := (Bool.and_eq_true _ _).mp hfire
          exact beq_iff_eq.mp this.1
        have hpref : isPref ps cs = true := ((Bool.and_eq_true _ _).mp hfire).2
        rcases isPref_decomp ps cs hpref with ⟨cs', rfl⟩
        simp only [replGo, hfire, if_true]
        rw [replGo_skip]
        apply List.mem_append_right
        apply ih cs'
        · have := hs
          simp only [List.length_cons, List.length_append] at this ⊢
          omega
        · rcases List.mem_cons.mp hxs with rfl | hmem
          · exact absurd (hpc ▸ List.mem_cons_self p ps) hx
          · rcases List.mem_append.mp hmem with h | h
            · exact absurd (List.mem_cons_of_mem p h) hx
            · exact h
      · simp only [replGo, hfire, if_false]
        rcases List.mem_cons.mp hxs with rfl | hmem
        · exact List.mem_cons_self _ _
        · exact List.mem_cons_of_mem _
            (ih cs (by simp only [List.length_cons] at hs; omega) hmem)

/-- Characters outside the pattern survive a global replacement. -/
theorem mem_replaceAllStr_preserve (pat rep : List Nat) (x : Nat) (s : List Nat)
    (hxs : x ∈ s) (hx : ¬ x ∈ pat) : x ∈ replaceAllStr pat rep s := by
  cases pat with
  | nil => exact hxs
  | cons p ps => exact mem_replGo_preserve p ps rep x hx s.length s le_rfl hxs

/-- Characters outside every pattern survive a pass cascade. -/
theorem mem_runPasses (passes : List (List Nat × List Nat)) :
    ∀ (s : List Nat) (x : Nat), x ∈ s → (∀ pr ∈ passes, ¬ x ∈ pr.1) →
    x ∈ runPasses passes s := by
  induction passes with
  | nil => intro s x h _; exact h
  | cons pr prs ih =>
    intro s x h hall
    rw [runPasses_cons]
    exact ih _ x
      (mem_replaceAllStr_preserve pr.1 pr.2 x s h (hall pr (List.mem_cons_self pr prs)))
      (fun q hq => hall q (List.mem_cons_of_mem pr hq))

/-- If the pattern occurs, the scan emits the replacement at least once. -/
theorem mem_replGo_of_occursB (p : Nat) (ps rep : List Nat) :
    ∀ s, occursB (p :: ps) s = true → ∀ x ∈ rep, x ∈ replGo p ps rep s 0 := by
  intro s
  induction s with
  | nil => intro h; cases h
  | cons c cs ih =>
    intro h x hx
    by_cases hfire : (p == c && isPref ps cs) = true
    · simp only [replGo, hfire, if_true]
      exact List.mem_append_left _ hx
    · simp only [replGo, hfire, if_false]
      apply List.mem_cons_of_mem
      apply ih _ x hx
      simp only [occursB, isPref, Bool.or_eq_true] at h
      rcases h with h | h
      · exact absurd h hfire
      · exact h

/-- A prefix occurrence free of the single-character pattern survives the
scan for that pattern. -/
theorem isPref_replGo_single (q : Nat) (r : List Nat) (sub : List Nat) :
    ∀ cs, ¬ q ∈ sub → isPref sub cs = true →
    isPref sub (replGo q [] r cs 0) = true := by
  induction sub with
  | nil => intro cs _ _; rfl
  | cons x sub' ih =>
    intro cs hq h
    cases cs with
    | nil => cases h
    | cons c cs2 =>
      simp only [isPref, Bool.and_eq_true, beq_iff_eq] at h
      have hqc : (q == c) = false := by
        simp only [beq_eq_false_iff_ne, ne_eq]
        intro he
        exact hq (by rw [he, h.1]; exact List.mem_cons_self _ _)
      simp only [replGo, hqc, isPref, Bool.false_and, Bool.false_eq_true, if_false,
        Bool.and_eq_true, beq_iff_eq]
      exact ⟨h.1, ih cs2 (fun hm => hq (List.mem_cons_of_mem x hm)) h.2⟩

/-- An occurrence free of the single-character pattern survives the whole
global replacement of that pattern. -/
theorem occursB_replGo_single (q : Nat) (r : List Nat) (sub : List Nat)
    (hq : ¬ q ∈ sub) :
    ∀ s, occursB sub s = true → occursB sub (replGo q [] r s 0) = true := by
  intro s
  induction s with
  | nil => intro h; exact h
  | cons c cs ih =>
    intro h
    simp only [occursB, Bool.or_eq_true] at h
    by_cases hfire : (q == c && isPref ([] : List Nat) cs) = true
    · have hqc : q = c := by
        have := (Bool.and_eq_true _ _).mp hfire
        exact beq_iff_eq.mp this.1
      simp only [replGo, hfire, if_true, List.length_nil]
      rcases h with h | h
      · cases sub with
        | nil => exact occursB_nil _
        | cons y sub' =>
          simp only [isPref, Bool.and_eq_true, beq_iff_eq] at h
          exact absurd (by rw [h.1, ← hqc]; exact List.mem_cons_self _ _ :
            q ∈ y :: sub') (by rw [h.1, ← hqc] at hq ⊢; exact hq)
      · exact occursB_append_left sub r _ (ih h)
    · simp only [replGo, hfire, if_false]
      rcases h with h | h
      · cases sub with
        | nil => exact occursB_nil _
        | cons y sub' =>
          simp only [isPref, Bool.and_eq_true, beq_iff_eq] at h
          simp only [occursB, isPref, Bool.or_eq_true, Bool.and_eq_true, beq_iff_eq]
          refine Or.inl ⟨h.1, ?_⟩
          exact isPref_replGo_single q r sub' cs
            (fun hm => hq (List.mem_cons_of_mem y hm)) h.2
      · simp only [occursB, Bool.or_eq_true]
        exact Or.inr (ih h)

set_option maxHeartbeats 1000000 in
/-- C5: longest-sequence precedence in the Russian normalizer.  In any
word in which the three-character sequence յու (or Յու) follows a prefix
free of sequence-lead characters, normalization replaces the whole
sequence by its own sentinel U+2117 — rendered "ю" — and never first the
two-character subsequence ու by the ու sentinel U+2042, which would
render "й" (for յ) followed by "у"; moreover every word containing յու
anywhere normalizes to a word containing the ю sentinel. -/
theorem c5_longest_sequence (a b : List Nat)
    (ha : ∀ c ∈ a, c ∉ rusSequenceLeads) :
    Russian.normalizeArmenianWord (a ++ S "յու" ++ b) =
      a ++ 0x2117 :: Russian.normalizeArmenianWord b ∧
    Russian.normalizeArmenianWord (a ++ S "Յու" ++ b) =
      a ++ 0x2117 :: Russian.normalizeArmenianWord b ∧
    (∀ w : List Nat, occursB (S "յու") w = true →
      0x2117 ∈ Russian.normalizeArmenianWord w) ∧
    Russian.mapArmenianCharToRussian 0x2117 = S "ю" ∧
    Russian.mapArmenianCharToRussian (C 'յ') = S "й" ∧
    Russian.mapArmenianCharToRussian 0x2042 = S "у" := by
  have hheads : ∀ pr ∈ ARMENIAN_LIGATURES ++ Russian.TEMP_SYMBOLS_FORWARD,
      ∃ h0, pr.1.head? = some h0 ∧ h0 ∈ rusSequenceLeads := by decide
  have hinert : ∀ (prs : List (List Nat × List Nat)),
      (∀ pr ∈ prs, pr ∈ ARMENIAN_LIGATURES ++ Russian.TEMP_SYMBOLS_FORWARD) →
      ∀ pr ∈ prs, ∀ c ∈ a, pr.1.head? ≠ some c := by
    intro prs hsub pr hpr c hc he
    rcases hheads pr (hsub pr hpr) with ⟨h0, hh, hl⟩
    rw [hh] at he
    injection he with he2
    exact ha c hc (he2 ▸ hl)
  refine ⟨?_, ?_, ?_, by decide, by decide, by decide⟩
  · -- lowercase յու
    unfold Russian.normalizeArmenianWord
    rw [show Russian.TEMP_SYMBOLS_FORWARD =
      (C 'յ' :: [C 'ո', C 'ւ'], [0x2117]) ::
        [(S "Յու", [0x2117]), (S "յա", [0x203D]), (S "Յա", [0x203D]),
         (S "ու", [0x2042]), (S "Ու", [0x2042]),
         (S "և", [0xA4]), (S "եւ", [0xA4]), (S "Եւ", [0xA4])] from by decide]
    rw [show S "յու" = (C 'յ' :: [C 'ո', C 'ւ'] : List Nat) from by decide]
    rw [List.append_assoc]
    rw [runPasses_capture]
    · rfl
    · -- hpre: ligature passes cannot start in a or in յու
      have hconc : ∀ pr ∈ ARMENIAN_LIGATURES,
          ∀ c ∈ (C 'յ' :: [C 'ո', C 'ւ'] : List Nat), pr.1.head? ≠ some c := by decide
      intro pr hpr c hc
      rcases List.mem_append.mp hc with h | h
      · exact hinert ARMENIAN_LIGATURES (fun q hq => List.mem_append_left _ hq) pr hpr c h
      · exact hconc pr hpr c h
    · -- hmid: the յու pass cannot start in a
      intro c hc he
      exact ha c hc (he ▸ (by decide : C 'յ' ∈ rusSequenceLeads))
    · -- hpost: the remaining passes cannot start in a or at the sentinel
      have hsub : ∀ pr ∈ [((S "Յու" : List Nat), ([0x2117] : List Nat)),
          (S "յա", [0x203D]), (S "Յա", [0x203D]), (S "ու", [0x2042]), (S "Ու", [0x2042]),
          (S "և", [0xA4]), (S "եւ", [0xA4]), (S "Եւ", [0xA4])],
          pr ∈ ARMENIAN_LIGATURES ++ Russian.TEMP_SYMBOLS_FORWARD := by decide
      have hconc : ∀ pr ∈ [((S "Յու" : List Nat), ([0x2117] : List Nat)),
          (S "յա", [0x203D]), (S "Յա", [0x203D]), (S "ու", [0x2042]), (S "Ու", [0x2042]),
          (S "և", [0xA4]), (S "եւ", [0xA4]), (S "Եւ", [0xA4])],
          ∀ c ∈ ([0x2117] : List Nat), pr.1.head? ≠ some c := by decide
      intro pr hpr c hc
      rcases List.mem_append.mp hc with h | h
      · exact hinert _ hsub pr hpr c h
      · exact hconc pr hpr c h
  · -- uppercase Յու
    have hpre : ∀ pr ∈ ARMENIAN_LIGATURES ++ [((S "յու" : List Nat), ([0x2117] : List Nat))],
        ∀ c ∈ a ++ (C 'Յ' :: [C 'ո', C 'ւ'] : List Nat), pr.1.head? ≠ some c := by
      have hsub : ∀ pr ∈ ARMENIAN_LIGATURES ++ [((S "յու" : List Nat), ([0x2117] : List Nat))],
          pr ∈ ARMENIAN_LIGATURES ++ Russian.TEMP_SYMBOLS_FORWARD := by decide
      have hconc : ∀ pr ∈ ARMENIAN_LIGATURES ++ [((S "յու" : List Nat), ([0x2117] : List Nat))],
          ∀ c ∈ (C 'Յ' :: [C 'ո', C 'ւ'] : List Nat), pr.1.head? ≠ some c := by decide
      intro pr hpr c hc
      rcases List.mem_append.mp hc with h | h
      · exact hinert _ hsub pr hpr c h
      · exact hconc pr hpr c h
    have hmid : ∀ c ∈ a, ¬ (C 'Յ' = c) := by
      intro c hc he
      exact ha c hc (he ▸ (by decide : C 'Յ' ∈ rusSequenceLeads))
    have hpost : ∀ pr ∈ [((S "յա" : List Nat), ([0x203D] : List Nat)),
        (S "Յա", [0x203D]), (S "ու", [0x2042]), (S "Ու", [0x2042]),
        (S "և", [0xA4]), (S "եւ", [0xA4]), (S "Եւ", [0xA4])],
        ∀ c ∈ a ++ ([0x2117] : List Nat), pr.1.head? ≠ some c := by
      have hsub : ∀ pr ∈ [((S "յա" : List Nat), ([0x203D] : List Nat)),
          (S "Յա", [0x203D]), (S "ու", [0x2042]), (S "Ու", [0x2042]),
          (S "և", [0xA4]), (S "եւ", [0xA4]), (S "Եւ", [0xA4])],
          pr ∈ ARMENIAN_LIGATURES ++ Russian.TEMP_SYMBOLS_FORWARD := by decide
      have hconc : ∀ pr ∈ [((S "յա" : List Nat), ([0x203D] : List Nat)),
          (S "Յա", [0x203D]), (S "ու", [0x2042]), (S "Ու", [0x2042]),
          (S "և", [0xA4]), (S "եւ", [0xA4]), (S "Եւ", [0xA4])],
          ∀ c ∈ ([0x2117] : List Nat), pr.1.head? ≠ some c := by decide
      intro pr hpr c hc
      rcases List.mem_append.mp hc with h | h
      · exact hinert _ hsub pr hpr c h
      · exact hconc pr hpr c h
    have hcap := runPasses_capture
      (ARMENIAN_LIGATURES ++ [((S "յու" : List Nat), ([0x2117] : List Nat))])
      [((S "յա" : List Nat), ([0x203D] : List Nat)),
       (S "Յա", [0x203D]), (S "ու", [0x2042]), (S "Ու", [0x2042]),
       (S "և", [0xA4]), (S "եւ", [0xA4]), (S "Եւ", [0xA4])]
      (C 'Յ') [C 'ո', C 'ւ'] [0x2117] a b hpre hmid hpost
    rw [show (ARMENIAN_LIGATURES ++ [((S "յու" : List Nat), ([0x2117] : List Nat))]) ++
        ((C 'Յ' :: [C 'ո', C 'ւ'], ([0x2117] : List Nat)) ::
          [(S "յա", [0x203D]), (S "Յա", [0x203D]),
           (S "ու", [0x2042]), (S "Ու", [0x2042]),
           (S "և", [0xA4]), (S "եւ", [0xA4]), (S "Եւ", [0xA4])]) =
        ARMENIAN_LIGATURES ++ Russian.TEMP_SYMBOLS_FORWARD from by decide] at hcap
    simp only [List.singleton_append] at hcap
    unfold Russian.normalizeArmenianWord
    rw [show S "Յու" = (C 'Յ' :: [C 'ո', C 'ւ'] : List Nat) from by decide]
    rw [List.append_assoc]
    exact hcap
  · -- general occurrence: every word containing յու gets the ю sentinel
    intro w hw
    unfold Russian.normalizeArmenianWord
    rw [runPasses_append]
    have h1 : occursB (S "յու") (runPasses ARMENIAN_LIGATURES w) = true := by
      have step : ∀ (passes : List (List Nat × List Nat)),
          (∀ pr ∈ passes, ∃ q, pr.1 = [q] ∧ ¬ q ∈ S "յու") →
          ∀ s, occursB (S "յու") s = true →
          occursB (S "յու") (runPasses passes s) = true := by
        intro passes
        induction passes with
        | nil => intro _ s h; exact h
        | cons pr prs ih =>
          intro hall s h
          rw [runPasses_cons]
          rcases hall pr (List.mem_cons_self pr prs) with ⟨q, hq1, hq2⟩
          refine ih (fun u hu => hall u (List.mem_cons_of_mem pr hu)) _ ?_
          rw [hq1]
          exact occursB_replGo_single q pr.2 (S "յու") hq2 s h
      have hlig : ∀ pr ∈ ARMENIAN_LIGATURES, ∃ q, pr.1 = [q] ∧ ¬ q ∈ S "յու" := by
        intro pr hpr
        simp only [ARMENIAN_LIGATURES] at hpr
        fin_cases hpr
        · exact ⟨C 'ﬓ', by decide, by decide⟩
        · exact ⟨C 'ﬔ', by decide, by decide⟩
        · exact ⟨C 'ﬕ', by decide, by decide⟩
        · exact ⟨C 'ﬖ', by decide, by decide⟩
        · exact ⟨C 'ﬗ', by decide, by decide⟩
      exact step ARMENIAN_LIGATURES hlig w hw
    rw [show Russian.TEMP_SYMBOLS_FORWARD =
      ((S "յու" : List Nat), ([0x2117] : List Nat)) ::
        [(S "Յու", [0x2117]), (S "յա", [0x203D]), (S "Յա", [0x203D]),
         (S "ու", [0x2042]), (S "Ու", [0x2042]),
         (S "և", [0xA4]), (S "եւ", [0xA4]), (S "Եւ", [0xA4])] from by decide]
    rw [runPasses_cons]
    apply mem_runPasses
    · rw [show (S "յու" : List Nat) = C 'յ' :: [C 'ո', C 'ւ'] from by decide] at h1 ⊢
      exact mem_replGo_of_occursB (C 'յ') [C 'ո', C 'ւ'] [0x2117] _ h1 0x2117
        (List.mem_singleton.mpr rfl)
    · decide

/-- C5 witness: inside the word բյուն the sequence յու becomes the ю
sentinel in one piece. -/
theorem c5_longest_sequence_witness :
    (∀ c ∈ S "բ", c ∉ rusSequenceLeads) ∧
    Russian.normalizeArmenianWord (S "բ" ++ S "յու" ++ S "ն") =
      S "բ" ++ 0x2117 :: Russian.normalizeArmenianWord (S "ն") ∧
    occursB (S "յու") (S "բյուն") = true ∧
    0x2117 ∈ Russian.normalizeArmenianWord (S "բյուն") ∧
    Russian.mapArmenianCharToRussian 0x2117 = S "ю" :=
  ⟨by decide, (c5_longest_sequence (S "բ") (S "ն") (by decide)).1, by decide,
    (c5_longest_sequence (S "բ") (S "ն") (by decide)).2.2.1 (S "բյուն") (by decide),
    (c5_longest_sequence (S "բ") (S "ն") (by decide)).2.2.2.1⟩

/-- C7: the concrete whole-pipeline scenarios, through the public
dispatch: five Latin-target scenarios and the Cyrillic-target scenario
Երևան → Ереван. -/
theorem c7_concrete_scenarios :
    transliterate (S "Կենտրոն") (S "en") = some (S "Kentron") ∧
    transliterate (S "Ոչ") (S "en") = some (S "Voch") ∧
    transliterate (S "ևազգի") (S "en") = some (S "yevazgi") ∧
    transliterate (S "Ով է այնտեղ։") (S "en") = some (S "Ov e ayntegh.") ∧
    transliterate (S "ՄԱՍՍԵՐԼԻ՞") (S "en") = some (S "MASSERLI?") ∧
    transliterate (S "Երևան") (S "ru") = some (S "Ереван") := by decide

/-- The defensive error branch of the raw word transliteration cannot
fire: the zero-length case already returned, and a nonempty character
list always has a first character. -/
theorem transliterateArmenianWordRawE_ok (w : List Nat) :
    Latin.transliterateArmenianWordRawE w = .ok (Latin.transliterateArmenianWordRaw w) := by
  rcases w with _ | ⟨c, _ | ⟨d, rest⟩⟩ <;> rfl

/-- The word pipeline never produces an error. -/
theorem transliterateArmenianWordE_ok (w : List Nat) :
    Latin.transliterateArmenianWordE w = .ok (Latin.transliterateArmenianWord w) := by
  unfold Latin.transliterateArmenianWordE Latin.transliterateArmenianWord
  rw [transliterateArmenianWordRawE_ok]
  rfl

/-- Error-propagating map over successes. -/
theorem exceptMapList_ok (f : List Nat → Except (List Nat) (List Nat))
    (g : List Nat → List Nat) (l : List (List Nat))
    (h : ∀ x ∈ l, f x = .ok (g x)) :
    Latin.exceptMapList f l = .ok (l.map g) := by
  induction l with
  | nil => rfl
  | cons x xs ih =>
    simp only [Latin.exceptMapList, h x (List.mem_cons_self x xs),
      ih (fun y hy => h y (List.mem_cons_of_mem x hy)), List.map_cons]

/-- Token processing never produces an error. -/
theorem processTokenE_ok (t : List Nat) :
    Latin.processTokenE t = .ok (Latin.processToken t) := by
  unfold Latin.processTokenE Latin.processToken
  by_cases h : (replaceArmenianPunctuation t).any isArmLetter = true
  · simp only [h, if_true]
    rw [exceptMapList_ok Latin.transliterateArmenianWordE Latin.transliterateArmenianWord
      _ (fun w _ => transliterateArmenianWordE_ok w)]
    rfl
  · simp only [h, if_false]
    rfl

/-- C8: the whole-text Latin transliteration returns normally on every
input — the exception-aware pipeline always produces `.ok` of the total
pipeline's value, so the defensive throw in
`transliterateArmenianWordRaw` is unreachable. -/
theorem c8_never_throws (text : List Nat) :
    Latin.transliterateArmenianTextToEngE text =
      .ok (Latin.transliterateArmenianTextToEng text) := by
  unfold Latin.transliterateArmenianTextToEngE Latin.transliterateArmenianTextToEng
  rw [exceptMapList_ok Latin.processTokenE Latin.processToken _
    (fun t _ => processTokenE_ok t)]
  rfl

/-- C9 counterexample: at the concrete tag "de" the dispatcher does not
fail with an explicit error — the switch has no default clause, the call
falls through and returns undefined (modelled as `none`), refuting the
claim that an unrecognized script tag raises. -/
theorem c9_dispatch_counterexample :
    transliterate (S "Կենտրոն") (S "de") = none := by decide

/-- C9 (amended): the dispatcher returns the Latin pipeline's result for
"en" (also through the default parameter), the Russian pipeline's result
for "ru", and for every other tag it falls through the switch and
returns undefined (`none`) — no explicit error is raised; the invalid
tags are excluded statically by the TypeScript union type instead. -/
theorem c9_dispatch (text tag : List Nat) :
    transliterate text (S "en") = some (Latin.transliterateArmenianTextToEng text) ∧
    transliterate text (S "ru") = some (Russian.transliterateArmenianTextToRus text) ∧
    transliterateDefault text = some (Latin.transliterateArmenianTextToEng text) ∧
    (tag ≠ S "en" → tag ≠ S "ru" → transliterate text tag = none) := by
  refine ⟨rfl, ?_, rfl, ?_⟩
  · have h : ¬ (S "ru" = S "en") := by decide
    simp [transliterate, h]
  · intro h1 h2
    simp [transliterate, h1, h2]

/-- C9 witness: the dispatch facts at a concrete text and the concrete
unrecognized tag "fr". -/
theorem c9_dispatch_witness :
    transliterate (S "Ոչ") (S "en") = some (S "Voch") ∧
    transliterate (S "Ոչ") (S "fr") = none := by
  refine ⟨by decide, ?_⟩
  exact (c9_dispatch (S "Ոչ") (S "fr")).2.2.2 (by decide) (by decide)

/-- C10 counterexample: in the consolidated implementation the
single-character input ֎ (U+058E) transliterates to "yev", not to the
backward-map string "ev" the claim states: the sentinel reaches the word
pipeline, where the word-initial YevRule fires. -/
theorem c10_sentinel_counterexample :
    Consolidated.transliterateArmenianText (S "֎") = S "yev" ∧
    S "yev" ≠ S "ev" := by decide

/-- C10 (amended): raw sentinel code points are rewritten rather than
passed through: ֏ (U+058F) transliterates to "u" and ֎ (U+058E) to
"yev" (its word-initial rule rendering; the backward map alone renders
"ev"), although neither appears among the forward normalization keys. -/
theorem c10_sentinel_amended :
    Consolidated.transliterateArmenianText (S "֏") = S "u" ∧
    Consolidated.transliterateArmenianText (S "֎") = S "yev" ∧
    Consolidated.mapArmenianCharToLatin (C '֏') = S "u" ∧
    Consolidated.mapArmenianCharToLatin (C '֎') = S "ev" ∧
    (∀ pr ∈ Consolidated.TEMP_SYMBOLS_FORWARD, C '֏' ∉ pr.1 ∧ C '֎' ∉ pr.1) := by decide
